import Mathlib

/-!
Verification of the toy payments engine (`src/main.rs`).

The engine replays a stream of transaction records against per-client
accounts.  We embed the Rust code shallowly:

* the `f64` monetary amounts are modelled as exact rationals `ℚ` (the spec,
  §9, treats the binary floating-point representation as an implementation
  artifact; the ledger rules themselves are exact arithmetic);
* the two `HashMap`s (`transactions : HashMap<u32,(f64,bool)>` inside an
  account, and `accounts : HashMap<u16, Account>`) are modelled as
  association lists with first-match lookup and replace-or-append insert,
  which is the map semantics the Rust code relies on;
* the `csv` deserializer's per-row `Result` is modelled by the `Row` type:
  `Row.ok t` is a successfully decoded record, `Row.err` an undecodable row.
-/

/-- Association-list lookup: the value at the first matching key. -/
def alistLookup {β : Type} : List (Nat × β) → Nat → Option β
  | [], _ => none
  | (k, v) :: rest, key => if k = key then some v else alistLookup rest key

/-- Association-list insert: replace the first entry with this key, or
append a new entry — the behaviour of `HashMap::insert` (and of writing
through `get_mut`) on a map without duplicate keys. -/
def alistInsert {β : Type} : List (Nat × β) → Nat → β → List (Nat × β)
  | [], key, v => [(key, v)]
  | (k, w) :: rest, key, v =>
      if k = key then (key, v) :: rest else (k, w) :: alistInsert rest key v

/-- Embedding of the Rust `enum TransactionType`. -/
inductive TransactionType where
  | Deposit
  | Withdrawal
  | Dispute
  | Resolve
  | Chargeback
deriving DecidableEq

/-- Embedding of the Rust `struct OffChainTransaction` (one decoded CSV
record): kind, client id (`u16`), transaction id (`u32`, the `tx` column)
and the optional amount. -/
structure OffChainTransaction where
  transaction_type : TransactionType
  client : Nat
  id : Nat
  amount : Option ℚ
deriving DecidableEq

/-- Embedding of the Rust `struct Account`: available and held balances,
the lock flag, and the transaction log mapping tx id to
`(original_amount, currently_disputed)`. -/
structure Account where
  available : ℚ
  held : ℚ
  locked : Bool
  transactions : List (Nat × (ℚ × Bool))
deriving DecidableEq

/-- The zeroed account the engine creates on first reference to a client. -/
def initialAccount : Account :=
  { available := 0, held := 0, locked := false, transactions := [] }

/-- Embedding of `process_transaction` from `src/main.rs`: dispatch on the
record's kind and mutate the account accordingly.  `get_mut` writes to the
transaction log become `alistInsert` at the already-present key. -/
def process_transaction (account : Account) (transaction : OffChainTransaction) :
    Account :=
  match transaction.transaction_type with
  | .Deposit =>
      match transaction.amount with
      | some amount =>
          { account with
              available := account.available + amount,
              transactions :=
                alistInsert account.transactions transaction.id (amount, false) }
      | none => account
  | .Withdrawal =>
      match transaction.amount with
      | some amount =>
          if account.available ≥ amount then
            { account with available := account.available - amount }
          else account
      | none => account
  | .Dispute =>
      match alistLookup account.transactions transaction.id with
      | some (amount, disputed) =>
          if disputed then account
          else
            { account with
                available := account.available - amount,
                held := account.held + amount,
                transactions :=
                  alistInsert account.transactions transaction.id (amount, true) }
      | none => account
  | .Resolve =>
      match alistLookup account.transactions transaction.id with
      | some (amount, disputed) =>
          if disputed then
            { account with
                available := account.available + amount,
                held := account.held - amount,
                transactions :=
                  alistInsert account.transactions transaction.id (amount, false) }
          else account
      | none => account
  | .Chargeback =>
      match alistLookup account.transactions transaction.id with
      | some (amount, disputed) =>
          if disputed then
            { account with
                held := account.held - amount,
                locked := true,
                transactions :=
                  alistInsert account.transactions transaction.id (amount, false) }
          else account
      | none => account

/-- One row of the decoded CSV stream, as the Rust engine sees it:
`reader.deserialize()` yields `Ok(transaction)` or a decode error. -/
inductive Row where
  | ok (transaction : OffChainTransaction)
  | err
deriving DecidableEq

/-- Embedding of the body of the per-row loop of `process_transaction_file`:
create the client's account if absent, then, unless the account is locked,
apply `process_transaction`.  A row that failed to decode is skipped. -/
def processRow (accounts : List (Nat × Account)) (row : Row) :
    List (Nat × Account) :=
  match row with
  | .err => accounts
  | .ok transaction =>
      let accounts1 :=
        if (alistLookup accounts transaction.client).isSome then accounts
        else alistInsert accounts transaction.client initialAccount
      match alistLookup accounts1 transaction.client with
      | some account =>
          if account.locked then accounts1
          else
            alistInsert accounts1 transaction.client
              (process_transaction account transaction)
      | none => accounts1

/-- Embedding of `process_transaction_file`: fold the per-row loop over the
decoded stream, starting from the empty account table.  (The final CSV
rendering is an external formatting concern and is not modelled.) -/
def process_transaction_file (rows : List Row) : List (Nat × Account) :=
  rows.foldl processRow []

theorem alistLookup_insert_self {β : Type} (l : List (Nat × β)) (k : Nat) (v : β) :
    alistLookup (alistInsert l k v) k = some v := by
  induction l with
  | nil => simp [alistInsert, alistLookup]
  | cons hd tl ih =>
      obtain ⟨k0, w⟩ := hd
      by_cases h : k0 = k
      · simp [alistInsert, h, alistLookup]
      · simp [alistInsert, h, alistLookup, ih]

theorem alistLookup_insert_ne {β : Type} (l : List (Nat × β)) (k k2 : Nat) (v : β)
    (h : k2 ≠ k) : alistLookup (alistInsert l k v) k2 = alistLookup l k2 := by
  induction l with
  | nil => simp [alistInsert, alistLookup, Ne.symm h]
  | cons hd tl ih =>
      obtain ⟨k0, w⟩ := hd
      by_cases h0 : k0 = k
      · subst h0
        simp [alistInsert, alistLookup, Ne.symm h]
      · simp [alistInsert, h0, alistLookup, ih]

/-- Claim C5: a Withdrawal with the amount absent is a no-op; with the
amount present it subtracts the amount from `available` exactly when
`available ≥ amount` and otherwise leaves the account entirely unchanged.
The embedded `process_transaction` returns only the account, mirroring the
`()`-returning Rust function: no error is signalled in either branch. -/
theorem withdrawal_spec (a : Account) (c id : Nat) :
    process_transaction a ⟨.Withdrawal, c, id, none⟩ = a ∧
    ∀ amt : ℚ, process_transaction a ⟨.Withdrawal, c, id, some amt⟩ =
      if a.available ≥ amt then { a with available := a.available - amt }
      else a := by
  refine ⟨rfl, fun amt => ?_⟩
  by_cases h : a.available ≥ amt
  · simp [process_transaction, h]
  · simp [process_transaction, h]

/-- Claim C6: a Deposit with the amount present adds the amount to
`available` and inserts `(tx_id, (amount, disputed := false))` into the
transaction log, overwriting any prior entry for that tx id (the final
conjunct: the inserted entry is what a later lookup sees); `held` and
`locked` are untouched; a Deposit with the amount absent is a no-op. -/
theorem deposit_spec (a : Account) (c id : Nat) (amt : ℚ) :
    (process_transaction a ⟨.Deposit, c, id, some amt⟩).available
        = a.available + amt ∧
    (process_transaction a ⟨.Deposit, c, id, some amt⟩).held = a.held ∧
    (process_transaction a ⟨.Deposit, c, id, some amt⟩).locked = a.locked ∧
    (process_transaction a ⟨.Deposit, c, id, some amt⟩).transactions
        = alistInsert a.transactions id (amt, false) ∧
    alistLookup (process_transaction a ⟨.Deposit, c, id, some amt⟩).transactions id
        = some (amt, false) ∧
    process_transaction a ⟨.Deposit, c, id, none⟩ = a := by
  refine ⟨rfl, rfl, rfl, rfl, ?_, rfl⟩
  simp [process_transaction, alistLookup_insert_self]

/-- Claim C3: applying a Dispute for the same tx id twice in immediate
succession equals applying it once — after a successful Dispute the log
entry is marked disputed, so the second application hits the
`already-disputed` guard and is a no-op. -/
theorem dispute_idempotent (a : Account) (c id : Nat) (amt? : Option ℚ) :
    process_transaction (process_transaction a ⟨.Dispute, c, id, amt?⟩)
        ⟨.Dispute, c, id, amt?⟩
      = process_transaction a ⟨.Dispute, c, id, amt?⟩ := by
  rcases hl : alistLookup a.transactions id with _ | ⟨amt, disputed⟩
  · simp [process_transaction, hl]
  · rcases disputed with _ | _
    · simp [process_transaction, hl, alistLookup_insert_self]
    · simp [process_transaction, hl]

/-- Claim C4: a Resolve or a Chargeback whose tx id is unknown to the
account's transaction log, or whose log entry is not currently marked
disputed, leaves the account state entirely unchanged. -/
theorem resolve_chargeback_undisputed_noop (a : Account) (c id : Nat)
    (amt? : Option ℚ)
    (h : ∀ q : ℚ × Bool, alistLookup a.transactions id = some q → q.2 = false) :
    process_transaction a ⟨.Resolve, c, id, amt?⟩ = a ∧
    process_transaction a ⟨.Chargeback, c, id, amt?⟩ = a := by
  rcases hl : alistLookup a.transactions id with _ | ⟨amt, disputed⟩
  · constructor <;> simp [process_transaction, hl]
  · have hd : disputed = false := h (amt, disputed) hl
    subst hd
    constructor <;> simp [process_transaction, hl]

/-- Witness for C4 at a concrete input: on the empty-log initial account
both a Resolve and a Chargeback for tx id 7 are no-ops. -/
theorem resolve_chargeback_undisputed_noop_witness :
    process_transaction initialAccount ⟨.Resolve, 1, 7, none⟩ = initialAccount ∧
    process_transaction initialAccount ⟨.Chargeback, 1, 7, none⟩ = initialAccount :=
  resolve_chargeback_undisputed_noop initialAccount 1 7 none
    (fun q hq => by simp [initialAccount, alistLookup] at hq)

/-- Claim C7: a Dispute referencing a tx id absent from the account's
transaction log is a no-op, and a Withdrawal never touches the transaction
log (the log is populated only by successfully applied Deposits) — hence a
Dispute referencing a tx id used only by Withdrawals is always a no-op. -/
theorem dispute_unknown_noop (a : Account) (c id : Nat) (amt? : Option ℚ)
    (t : OffChainTransaction)
    (habs : alistLookup a.transactions id = none)
    (hw : t.transaction_type = .Withdrawal) :
    process_transaction a ⟨.Dispute, c, id, amt?⟩ = a ∧
    (process_transaction a t).transactions = a.transactions := by
  constructor
  · simp [process_transaction, habs]
  · rcases t with ⟨ty, tc, tid, tamt⟩
    cases hw
    rcases tamt with _ | amt
    · rfl
    · by_cases h : a.available ≥ amt <;> simp [process_transaction, h]

/-- Witness for C7 at a concrete input: a Dispute for the unknown tx id 3
on the initial account is a no-op, and a successful Withdrawal leaves the
transaction log unchanged. -/
theorem dispute_unknown_noop_witness :
    process_transaction initialAccount ⟨.Dispute, 2, 3, none⟩ = initialAccount ∧
    (process_transaction initialAccount ⟨.Withdrawal, 2, 3, some 0⟩).transactions
      = initialAccount.transactions :=
  dispute_unknown_noop initialAccount 2 3 none ⟨.Withdrawal, 2, 3, some 0⟩
    (by simp [initialAccount, alistLookup]) rfl

/-- Claim C8: the first record referencing a never-seen client id creates
the zeroed, unlocked account with an empty log, and the record is then
dispatched against exactly that fresh account. -/
theorem new_client_account (accounts : List (Nat × Account))
    (t : OffChainTransaction)
    (h : alistLookup accounts t.client = none) :
    alistLookup (processRow accounts (.ok t)) t.client
      = some (process_transaction initialAccount t) := by
  simp only [processRow, h, Option.isSome_none, Bool.false_eq_true, if_false]
  rw [alistLookup_insert_self]
  simp [initialAccount, alistLookup_insert_self]

/-- Witness for C8 at a concrete input: the first record for client 5 (a
Deposit of 2) leaves client 5 mapped to the result of dispatching that
Deposit against the zeroed account. -/
theorem new_client_account_witness :
    alistLookup (processRow [] (.ok ⟨.Deposit, 5, 9, some 2⟩)) 5
      = some (process_transaction initialAccount ⟨.Deposit, 5, 9, some 2⟩) :=
  new_client_account [] ⟨.Deposit, 5, 9, some 2⟩ rfl

/-- Claim C9: a stream with one undecodable row interleaved among the rest
produces the same final account table as the same stream with that row
removed — decode failures are skipped and never affect any account. -/
theorem invalid_row_tolerance (pre post : List Row) :
    process_transaction_file (pre ++ Row.err :: post)
      = process_transaction_file (pre ++ post) := by
  simp [process_transaction_file, List.foldl_append]
  rfl

theorem processRow_lookup_ne (accounts : List (Nat × Account))
    (t : OffChainTransaction) (c : Nat) (hc : c ≠ t.client) :
    alistLookup (processRow accounts (.ok t)) c = alistLookup accounts c := by
  cases hm : alistLookup accounts t.client with
  | some account =>
      by_cases hlk : account.locked
      · simp [processRow, hm, hlk]
      · simp [processRow, hm, hlk, alistLookup_insert_ne _ _ _ _ hc]
  | none =>
      simp [processRow, hm, alistLookup_insert_self, initialAccount,
            alistLookup_insert_ne _ _ _ _ hc]

theorem processRow_locked (accounts : List (Nat × Account))
    (t : OffChainTransaction) (a : Account)
    (hl : alistLookup accounts t.client = some a) (hlock : a.locked = true) :
    processRow accounts (.ok t) = accounts := by
  simp [processRow, hl, hlock]

/-- Claim C2: once a client's account is locked, any record for that client
is skipped whole — the entire account table is unchanged, before the
record's kind is even examined — and the account (its `available`, `held`,
`locked` and transaction log) stays exactly the same for the rest of the
run, whatever records follow; in particular `locked` stays `true`. -/
theorem locked_account_frozen (accounts : List (Nat × Account))
    (rows : List Row) (c : Nat) (a : Account) (t : OffChainTransaction)
    (hl : alistLookup accounts c = some a) (hlock : a.locked = true)
    (htc : t.client = c) :
    processRow accounts (.ok t) = accounts ∧
    alistLookup (rows.foldl processRow accounts) c = some a := by
  constructor
  · exact processRow_locked accounts t a (htc ▸ hl) hlock
  · induction rows generalizing accounts with
    | nil => exact hl
    | cons row rest ih =>
        have hstep : alistLookup (processRow accounts row) c = some a := by
          cases row with
          | err => exact hl
          | ok t2 =>
              by_cases hc2 : c = t2.client
              · rw [processRow_locked accounts t2 a (hc2 ▸ hl) hlock]
                exact hl
              · rw [processRow_lookup_ne accounts t2 c hc2]
                exact hl
        exact ih (processRow accounts row) hstep

/-- Witness for C2 at a concrete input: with client 1 locked, a Deposit
record for client 1 is skipped whole and the account survives a one-row
run unchanged. -/
theorem locked_account_frozen_witness :
    processRow [(1, ⟨0, 0, true, []⟩)] (.ok ⟨.Deposit, 1, 1, some 5⟩)
        = [(1, ⟨0, 0, true, []⟩)] ∧
    alistLookup ([Row.ok ⟨.Deposit, 1, 1, some 5⟩].foldl processRow
        [(1, ⟨0, 0, true, []⟩)]) 1 = some ⟨0, 0, true, []⟩ :=
  locked_account_frozen [(1, ⟨0, 0, true, []⟩)] [Row.ok ⟨.Deposit, 1, 1, some 5⟩]
    1 ⟨0, 0, true, []⟩ ⟨.Deposit, 1, 1, some 5⟩ rfl rfl rfl

/-- Per-client running totals of the amounts of successfully-applied
Deposits, Withdrawals and Chargebacks, used to state the conservation
property. -/
structure AppliedSums where
  deposits : ℚ
  withdrawals : ℚ
  chargebacks : ℚ
deriving DecidableEq

/-- Zero totals: nothing applied yet. -/
def initialSums : AppliedSums := ⟨0, 0, 0⟩

/-- The balance a client's totals predict: applied deposits minus applied
withdrawals minus applied chargebacks. -/
def sumsValue (s : AppliedSums) : ℚ :=
  s.deposits - s.withdrawals - s.chargebacks

/-- Componentwise addition of totals. -/
def addSums (s d : AppliedSums) : AppliedSums :=
  ⟨s.deposits + d.deposits, s.withdrawals + d.withdrawals,
   s.chargebacks + d.chargebacks⟩

/-- The totals contributed by one record dispatched against the given
account state: the amount counts exactly when the corresponding branch of
`process_transaction` applies it (Deposit with amount present; Withdrawal
with amount present and sufficient funds; Chargeback whose log entry is
currently disputed).  Disputes and Resolves move funds between `available`
and `held` and contribute nothing to the total. -/
def appliedDelta (account : Account) (transaction : OffChainTransaction) :
    AppliedSums :=
  match transaction.transaction_type with
  | .Deposit =>
      match transaction.amount with
      | some amount => ⟨amount, 0, 0⟩
      | none => initialSums
  | .Withdrawal =>
      match transaction.amount with
      | some amount =>
          if account.available ≥ amount then ⟨0, amount, 0⟩ else initialSums
      | none => initialSums
  | .Chargeback =>
      match alistLookup account.transactions transaction.id with
      | some (amount, disputed) =>
          if disputed then ⟨0, 0, amount⟩ else initialSums
      | none => initialSums
  | _ => initialSums

/-- Advance the per-client totals by one row, judged against the account
table as it stood before the row (a locked account applies nothing; an
absent account is about to be created zeroed, so the fresh account is what
the record is judged against). -/
def sumsStep (sums : List (Nat × AppliedSums))
    (accounts : List (Nat × Account)) (row : Row) :
    List (Nat × AppliedSums) :=
  match row with
  | .err => sums
  | .ok t =>
      let account := (alistLookup accounts t.client).getD initialAccount
      if account.locked then sums
      else
        alistInsert sums t.client
          (addSums ((alistLookup sums t.client).getD initialSums)
            (appliedDelta account t))

/-- One step of the engine instrumented with the applied totals. -/
def runStep (p : List (Nat × Account) × List (Nat × AppliedSums)) (row : Row) :
    List (Nat × Account) × List (Nat × AppliedSums) :=
  (processRow p.1 row, sumsStep p.2 p.1 row)

/-- The engine run instrumented with the applied totals. -/
def runWithSums (rows : List Row) :
    List (Nat × Account) × List (Nat × AppliedSums) :=
  rows.foldl runStep ([], [])

/-- A client's `available + held`, with 0 for a client with no account. -/
def accountTotal (accounts : List (Nat × Account)) (c : Nat) : ℚ :=
  match alistLookup accounts c with
  | some a => a.available + a.held
  | none => 0

/-- A client's applied totals, zero for a client with no entry. -/
def clientSums (sums : List (Nat × AppliedSums)) (c : Nat) : AppliedSums :=
  (alistLookup sums c).getD initialSums

theorem process_transaction_total (account : Account)
    (t : OffChainTransaction) :
    (process_transaction account t).available + (process_transaction account t).held
      = account.available + account.held
        + (appliedDelta account t).deposits
        - (appliedDelta account t).withdrawals
        - (appliedDelta account t).chargebacks := by
  rcases t with ⟨ty, c, id, amt?⟩
  cases ty with
  | Deposit =>
      rcases amt? with _ | amt
      · simp [process_transaction, appliedDelta, initialSums]
      · simp only [process_transaction, appliedDelta]
        ring
  | Withdrawal =>
      rcases amt? with _ | amt
      · simp [process_transaction, appliedDelta, initialSums]
      · by_cases h : account.available ≥ amt
        · simp only [process_transaction, appliedDelta, if_pos h]
          ring
        · simp [process_transaction, appliedDelta, h, initialSums]
  | Dispute =>
      rcases hl : alistLookup account.transactions id with _ | ⟨amt, disputed⟩
      · simp [process_transaction, appliedDelta, hl, initialSums]
      · rcases disputed with _ | _
        · simp only [process_transaction, appliedDelta, hl, if_neg, Bool.false_eq_true,
            not_false_iff, if_false, initialSums]
          ring
        · simp [process_transaction, appliedDelta, hl, initialSums]
  | Resolve =>
      rcases hl : alistLookup account.transactions id with _ | ⟨amt, disputed⟩
      · simp [process_transaction, appliedDelta, hl, initialSums]
      · rcases disputed with _ | _
        · simp [process_transaction, appliedDelta, hl, initialSums]
        · simp only [process_transaction, appliedDelta, hl, if_pos, initialSums]
          ring
  | Chargeback =>
      rcases hl : alistLookup account.transactions id with _ | ⟨amt, disputed⟩
      · simp [process_transaction, appliedDelta, hl, initialSums]
      · rcases disputed with _ | _
        · simp [process_transaction, appliedDelta, hl, initialSums]
        · simp only [process_transaction, appliedDelta, hl, if_pos]
          ring

/-- The conservation invariant tying an account table to the applied
totals: for every client, `available + held` equals the predicted balance. -/
def conserved (accounts : List (Nat × Account))
    (sums : List (Nat × AppliedSums)) : Prop :=
  ∀ c : Nat, accountTotal accounts c = sumsValue (clientSums sums c)

theorem sumsValue_addSums (s d : AppliedSums) :
    sumsValue (addSums s d) = sumsValue s + sumsValue d := by
  simp only [sumsValue, addSums]
  ring

theorem conserved_runStep (p : List (Nat × Account) × List (Nat × AppliedSums))
    (row : Row) (h : conserved p.1 p.2) :
    conserved (runStep p row).1 (runStep p row).2 := by
  obtain ⟨accounts, sums⟩ := p
  cases row with
  | err => exact h
  | ok t =>
      intro c
      by_cases hc : c = t.client
      · subst hc
        cases hm : alistLookup accounts t.client with
        | some account =>
            by_cases hlk : account.locked
            · have e1 : processRow accounts (.ok t) = accounts :=
                processRow_locked accounts t account hm hlk
              have e2 : sumsStep sums accounts (.ok t) = sums := by
                simp [sumsStep, hm, hlk]
              simpa [runStep, e1, e2] using h t.client
            · have e1 : alistLookup (processRow accounts (.ok t)) t.client
                  = some (process_transaction account t) := by
                simp [processRow, hm, hlk, alistLookup_insert_self]
              have e2 : clientSums (sumsStep sums accounts (.ok t)) t.client
                  = addSums (clientSums sums t.client) (appliedDelta account t) := by
                simp [sumsStep, hm, hlk, clientSums, alistLookup_insert_self]
              have h0 := h t.client
              simp only [accountTotal, hm] at h0
              simp only [runStep, accountTotal, e1, e2, sumsValue_addSums,
                process_transaction_total, h0, sumsValue, addSums]
              ring
        | none =>
            have e1 : alistLookup (processRow accounts (.ok t)) t.client
                = some (process_transaction initialAccount t) :=
              new_client_account accounts t (by rw [hm])
            have e2 : clientSums (sumsStep sums accounts (.ok t)) t.client
                = addSums (clientSums sums t.client)
                    (appliedDelta initialAccount t) := by
              simp [sumsStep, hm, initialAccount, clientSums,
                alistLookup_insert_self]
            have h0 := h t.client
            simp only [accountTotal, hm] at h0
            have h1 := process_transaction_total initialAccount t
            simp only [initialAccount, zero_add, add_zero] at h1
            simp only [sumsValue] at h0
            simp only [runStep, accountTotal, e1, e2, sumsValue_addSums,
              sumsValue, initialSums, initialAccount, addSums]
            linarith [h0, h1]
      · have e1 : alistLookup (processRow accounts (.ok t)) c
            = alistLookup accounts c := processRow_lookup_ne accounts t c hc
        have e2 : clientSums (sumsStep sums accounts (.ok t)) c
            = clientSums sums c := by
          simp only [sumsStep, clientSums]
          by_cases hlk : ((alistLookup accounts t.client).getD initialAccount).locked
          · simp [hlk]
          · simp [hlk, alistLookup_insert_ne _ _ _ _ hc]
        simpa [runStep, accountTotal, e1, e2] using h c

theorem runWithSums_fst (rows : List Row) :
    ∀ (accounts : List (Nat × Account)) (sums : List (Nat × AppliedSums)),
      (rows.foldl runStep (accounts, sums)).1 = rows.foldl processRow accounts := by
  induction rows with
  | nil => intro accounts sums; rfl
  | cons row rest ih =>
      intro accounts sums
      exact ih (processRow accounts row) (sumsStep sums accounts row)

theorem conserved_foldl (rows : List Row) :
    ∀ p : List (Nat × Account) × List (Nat × AppliedSums),
      conserved p.1 p.2 →
      conserved (rows.foldl runStep p).1 (rows.foldl runStep p).2 := by
  induction rows with
  | nil => intro p h; exact h
  | cons row rest ih =>
      intro p h
      exact ih (runStep p row) (conserved_runStep p row h)

/-- Claim C1: for every decoded stream (hence for every prefix of any
input stream) and every client, after the run the client's
`available + held` equals the sum of the amounts of the
successfully-applied Deposits for that client, minus the amounts of the
successfully-applied Withdrawals, minus the amounts of the
successfully-applied Chargebacks, as accumulated by the instrumented run
`runWithSums`. -/
theorem conservation (rows : List Row) (c : Nat) :
    accountTotal (process_transaction_file rows) c
      = sumsValue (clientSums (runWithSums rows).2 c) := by
  have h0 : conserved ([] : List (Nat × Account)) ([] : List (Nat × AppliedSums)) := by
    intro c2
    simp [accountTotal, clientSums, alistLookup, sumsValue, initialSums]
  have h1 := conserved_foldl rows ([], []) h0
  have h2 := runWithSums_fst rows [] []
  rw [process_transaction_file, ← h2]
  exact h1 c

/-- Claim C10: Dispute performs no funds check.  First conjunct: on the
concrete stream Deposit(client 1, tx 1, 100), Withdrawal(client 1, tx 2,
60), Dispute(client 1, tx 1) the Dispute still applies and leaves client
1's `available` strictly negative (it ends at -60).  Second conjunct: a
Dispute whose log entry is present and undisputed applies for every value
of `available` — negative included — moving the amount unconditionally,
so the engine neither prevents nor repairs a negative available balance. -/
theorem dispute_no_funds_check :
    ((alistLookup (process_transaction_file
        [Row.ok ⟨.Deposit, 1, 1, some 100⟩,
         Row.ok ⟨.Withdrawal, 1, 2, some 60⟩,
         Row.ok ⟨.Dispute, 1, 1, none⟩]) 1).getD initialAccount).available < 0 ∧
    ∀ (av hl : ℚ) (c id : Nat) (amt : ℚ) (amt? : Option ℚ),
      process_transaction ⟨av, hl, false, [(id, (amt, false))]⟩
          ⟨.Dispute, c, id, amt?⟩
        = ⟨av - amt, hl + amt, false, [(id, (amt, true))]⟩ := by
  constructor
  · norm_num [process_transaction_file, List.foldl, processRow,
      process_transaction, alistLookup, alistInsert, initialAccount]
  · intro av hl c id amt amt?
    simp [process_transaction, alistLookup, alistInsert]
